import Mathlib

/-!
Shallow embedding of `assembly_line_balancing_problem.py`, the single source
file of the `Rastion/assembly_line_balancing` repository, together with
theorems settling the specification claims about it.

Modelling conventions:
* Python exceptions are modelled by `Except PyErr`: `ValueError` (raised by
  `int(...)`, tuple unpacking, and the explicit `raise ValueError` in
  `evaluate_solution`), `IndexError` (out-of-range list indexing) and
  `StopIteration` (calling `next` on an exhausted iterator inside
  `_load_instance_from_file`).
* Python integers are `Int` (unbounded, as in Python).  The float literal
  `1e9` used as the penalty is exactly the integer `10^9` in IEEE binary64,
  so the evaluator's result type is modelled as `Int`.
* A candidate-solution element may be any Python object; only its being an
  `int` (with its value) matters to the code, so elements are modelled by
  `PyVal` (an integer, or some non-integer object).  Likewise the solution
  argument itself is either a list/tuple of such values or some non-sequence
  object (`SolInput`).
* Python `dict`s (insertion-ordered, with key lookup) are modelled by
  association lists that keep insertion order: overwriting updates in place,
  a fresh key is appended at the end.
* Tokens come from `f.read().split()` and are therefore non-empty strings
  without whitespace.  `int(token)` is modelled for ASCII decimal literals
  with an optional leading sign (`pyInt`); underscore digit grouping and
  non-ASCII digits are not modelled.  `','` membership and `split(',')` are
  implemented on the character list of the token.
-/

inductive PyErr where
  | valueError
  | indexError
  | stopIteration
deriving DecidableEq, Repr

/-- A Python value as far as `evaluate_solution` can observe it: an `int`
(Python `bool`s are `int`s) or some non-integer object. -/
inductive PyVal where
  | int (n : Int)
  | other
deriving DecidableEq, Repr

/-- The argument passed to `evaluate_solution`: a list/tuple of values, or a
non-sequence object. -/
inductive SolInput where
  | seq (xs : List PyVal)
  | nonSeq
deriving DecidableEq, Repr

/-- The fields of `AssemblyLineBalancingProblem` after construction.
`nb_tasks`, `max_nb_stations` and `cycle_time` are Python ints; the loader
sets `max_nb_stations = nb_tasks`.  `successors` is the insertion-ordered
dict mapping a predecessor task index to its list of successor indices. -/
structure ProblemInstance where
  nb_tasks : Int
  max_nb_stations : Int
  cycle_time : Int
  processing_time : List Int
  successors : List (Int × List Int)
deriving DecidableEq, Repr

/-- Python list indexing `xs[i]`: negative indices count from the end,
out-of-range raises `IndexError`. -/
def pyGet (xs : List Int) (i : Int) : Except PyErr Int :=
  let j : Int := if i < 0 then i + xs.length else i
  if 0 ≤ j ∧ j < xs.length then .ok (xs.getD j.toNat 0) else .error .indexError

/-- `PENALTY = 1e9` (the float `1e9` is exactly `10^9`). -/
def PENALTY : Int := 1000000000

/-- The per-element validity test of `evaluate_solution`:
`not isinstance(s, int) or s < 0 or s >= self.max_nb_stations` negated. -/
def isValidStation (maxSt : Int) : PyVal → Bool
  | PyVal.int s => decide (0 ≤ s) && decide (s < maxSt)
  | PyVal.other => false

/-- The integer value of a station entry; only applied after the validity
check has established that every entry is an `int`. -/
def PyVal.toIntD : PyVal → Int
  | PyVal.int n => n
  | PyVal.other => 0

/-- The capacity-check loop of `evaluate_solution`:
`for i, station in enumerate(solution): station_times.setdefault(station, 0);
station_times[station] += self.processing_time[i];
if station_times[station] > self.cycle_time: return PENALTY`.
`times` is the running `station_times` dict (total function defaulting to 0,
which is exactly what `setdefault(station, 0)` followed by `+=` computes);
`i` is the `enumerate` counter.  Returns `ok false` when the loop returns
the penalty, `ok true` when it runs to completion. -/
def capacityGo (pt : List Int) (cycle : Int) : Nat → (Int → Int) → List Int → Except PyErr Bool
  | _, _, [] => .ok true
  | i, times, s :: rest =>
    match pyGet pt (i : Int) with
    | .error e => .error e
    | .ok p =>
      let t := times s + p
      if cycle < t then .ok false
      else capacityGo pt cycle (i + 1) (fun x => if x = s then t else times x) rest

/-- The inner precedence loop: `for j in succs: if solution[i] > solution[j]:
return PENALTY` (both `solution[i]` and `solution[j]` are re-indexed on each
iteration, in that order). -/
def precPairs (sol : List Int) (i : Int) : List Int → Except PyErr Bool
  | [] => .ok true
  | j :: rest =>
    match pyGet sol i with
    | .error e => .error e
    | .ok si =>
      match pyGet sol j with
      | .error e => .error e
      | .ok sj => if sj < si then .ok false else precPairs sol i rest

/-- The outer precedence loop over `self.successors.items()`. -/
def precedenceGo (sol : List Int) : List (Int × List Int) → Except PyErr Bool
  | [] => .ok true
  | (i, succs) :: rest =>
    match precPairs sol i succs with
    | .error e => .error e
    | .ok false => .ok false
    | .ok true => precedenceGo sol rest

/-- `evaluate_solution`.  Returns `error valueError` for the explicit
`raise ValueError` on a mis-shaped input, `error indexError` when list
indexing inside a check raises, and otherwise `ok` of the returned score
(`PENALTY` or the number of distinct stations `len(set(solution))`). -/
def evaluate_solution (inst : ProblemInstance) (input : SolInput) : Except PyErr Int :=
  match input with
  | SolInput.nonSeq => .error .valueError
  | SolInput.seq sol =>
    if (sol.length : Int) ≠ inst.nb_tasks then .error .valueError
    else if !(sol.all (isValidStation inst.max_nb_stations)) then .ok PENALTY
    else
      let st := sol.map PyVal.toIntD
      match capacityGo inst.processing_time inst.cycle_time 0 (fun _ => 0) st with
      | .error e => .error e
      | .ok false => .ok PENALTY
      | .ok true =>
        match precedenceGo st inst.successors with
        | .error e => .error e
        | .ok false => .ok PENALTY
        | .ok true => .ok (st.dedup.length : Int)

/-! ### The instance loader -/

/-- Value of a non-empty all-digit character list. -/
def digitsToNat (cs : List Char) : Nat :=
  cs.foldl (fun a c => a * 10 + (c.toNat - 48)) 0

/-- Parse a non-empty run of ASCII digits. -/
def parseDigits (cs : List Char) : Option Nat :=
  if cs.isEmpty then none
  else if cs.all Char.isDigit then some (digitsToNat cs) else none

/-- Python `int(token)` on a whitespace-free token: optional sign, then
decimal digits. -/
def pyIntChars : List Char → Option Int
  | '-' :: rest => (parseDigits rest).map (fun n => -(n : Int))
  | '+' :: rest => (parseDigits rest).map (fun n => (n : Int))
  | cs => (parseDigits cs).map (fun n => (n : Int))

def pyInt (s : String) : Option Int :=
  pyIntChars s.toList

/-- Python `s.split(',')` on the token's characters: splits at every comma,
keeping empty pieces (so `"a,,b"` gives three pieces and `""` gives one). -/
def splitOnComma : List Char → List (List Char)
  | [] => [[]]
  | c :: rest =>
    if c = ',' then [] :: splitOnComma rest
    else
      match splitOnComma rest with
      | g :: gs => (c :: g) :: gs
      | [] => [[c]]

/-- `for _ in range(n): next(file_it)` — skip `n` tokens, raising
`StopIteration` if the stream runs out. -/
def skipTokens : Nat → List String → Except PyErr (List String)
  | 0, ts => .ok ts
  | _ + 1, [] => .error .stopIteration
  | n + 1, _ :: ts => skipTokens n ts

/-- `int(next(file_it))`: `StopIteration` on exhaustion, `ValueError` on a
non-integer token. -/
def readInt : List String → Except PyErr (Int × List String)
  | [] => .error .stopIteration
  | t :: ts =>
    match pyInt t with
    | none => .error .valueError
    | some n => .ok (n, ts)

/-- Python dict assignment `d[k] = v`: overwrite in place, else append. -/
def dictInsert (d : List (Int × Int)) (k : Int) (v : Int) : List (Int × Int) :=
  if d.any (fun p => p.1 == k) then
    d.map (fun p => if p.1 == k then (p.1, v) else p)
  else d ++ [(k, v)]

/-- The processing-time loop: `for _ in range(self.nb_tasks):
task = int(next(file_it)) - 1; processing_time_dict[task] = int(next(file_it))`. -/
def readPairs : Nat → List String → List (Int × Int) → Except PyErr (List (Int × Int) × List String)
  | 0, ts, d => .ok (d, ts)
  | _ + 1, [], _ => .error .stopIteration
  | _ + 1, [t], _ =>
    match pyInt t with
    | none => .error .valueError
    | some _ => .error .stopIteration
  | n + 1, t :: u :: ts2, d =>
    match pyInt t with
    | none => .error .valueError
    | some task =>
      match pyInt u with
      | none => .error .valueError
      | some time => readPairs n ts2 (dictInsert d (task - 1) time)

/-- Python `self.successors[pred].append(succ)` / `self.successors[pred] = [succ]`:
append to the existing entry's list, else add a fresh entry at the end. -/
def dictAppend (d : List (Int × List Int)) (k : Int) (v : Int) : List (Int × List Int) :=
  if d.any (fun p => p.1 == k) then
    d.map (fun p => if p.1 == k then (p.1, p.2 ++ [v]) else p)
  else d ++ [(k, [v])]

/-- The trailing precedence scan: `while True: pair = next(file_it)` (a
`StopIteration` breaks the loop); `if ',' in pair: pred, succ = pair.split(',')`
(raising `ValueError` unless the split has exactly two pieces);
`pred = int(pred) - 1; succ = int(succ) - 1` (each `int` may raise
`ValueError`); then append `succ` under key `pred`. -/
def readSuccessors : List String → List (Int × List Int) → Except PyErr (List (Int × List Int))
  | [], acc => .ok acc
  | t :: ts, acc =>
    if t.toList.contains ',' then
      match splitOnComma t.toList with
      | [a, b] =>
        match pyIntChars a, pyIntChars b with
        | some pa, some pb => readSuccessors ts (dictAppend acc (pa - 1) (pb - 1))
        | _, _ => .error .valueError
      | _ => .error .valueError
    else readSuccessors ts acc

/-- `sorted(processing_time_dict.items(), key=lambda x: x[0])` — a stable
sort of the dict's items by key. -/
def sortPairs (l : List (Int × Int)) : List (Int × Int) :=
  List.insertionSort (fun a b => a.1 ≤ b.1) l

/-- `_load_instance_from_file`, applied to the whitespace-split token list of
the file's contents: skip 3, read `nb_tasks` (and set
`max_nb_stations = nb_tasks`), skip 2, read `cycle_time`, skip 5, read
`nb_tasks` (task, time) pairs into a dict, skip 2, sort the dict by task
index to produce `processing_time`, then scan the remaining tokens for
precedence pairs. -/
def loadInstance (tokens : List String) : Except PyErr ProblemInstance := do
  let ts0 ← skipTokens 3 tokens
  let (nb, ts1) ← readInt ts0
  let ts2 ← skipTokens 2 ts1
  let (ct, ts3) ← readInt ts2
  let ts4 ← skipTokens 5 ts3
  let (dict, ts5) ← readPairs nb.toNat ts4 []
  let ts6 ← skipTokens 2 ts5
  let succ ← readSuccessors ts6 []
  .ok { nb_tasks := nb, max_nb_stations := nb, cycle_time := ct,
        processing_time := (sortPairs dict).map Prod.snd, successors := succ }

def listTotal : List (Int × Int) → Int → Int
  | [], _ => 0
  | (k, v) :: rest, s => (if k = s then v else 0) + listTotal rest s

/-- Total processing time assigned by assignment `sol` to station `s`,
pairing the assignment positionally with the processing times `pt`. -/
def stationTotal (pt : List Int) (sol : List Int) (s : Int) : Int :=
  listTotal (sol.zip pt) s

def capPure (cycle : Int) : (Int → Int) → List (Int × Int) → Bool
  | _, [] => true
  | times, (s, p) :: rest =>
    let t := times s + p
    if cycle < t then false
    else capPure cycle (fun x => if x = s then t else times x) rest

/-- The spec's concrete scenario instance: 3 tasks, cycle limit 10,
processing times [4, 5, 3], task 0 precedes task 2. -/
def exInst : ProblemInstance :=
  { nb_tasks := 3, max_nb_stations := 3, cycle_time := 10,
    processing_time := [4, 5, 3], successors := [(0, [2])] }

/-- An explicitly constructed instance whose `task_count` equals the penalty
constant `10^9` (the constructor performs no validation of the field
values, so this instance is expressible). -/
def hugeInst : ProblemInstance :=
  { nb_tasks := 1000000000, max_nb_stations := 1000000000, cycle_time := 1,
    processing_time := [], successors := [] }

/-- Encoding relation between a token segment and the (task, time) pairs it
denotes: tokens come in consecutive twos, each parsing as the respective
integers. -/
def tokensEncodePairs : List String → List (Int × Int) → Bool
  | [], [] => true
  | a :: b :: ts, (x, y) :: ps =>
    pyInt a == some x && pyInt b == some y && tokensEncodePairs ts ps
  | _, _ => false

instance : IsTotal (Int × Int) (fun a b => a.1 ≤ b.1) :=
  ⟨fun a b => le_total a.1 b.1⟩

instance : IsTrans (Int × Int) (fun a b => a.1 ≤ b.1) :=
  ⟨fun _ _ _ h1 h2 => le_trans h1 h2⟩

/-! ### Theorems -/

theorem pyGet_ok (xs : List Int) (i : Int) (h0 : 0 ≤ i) (h1 : i < (xs.length : Int)) :
    pyGet xs i = .ok (xs.getD i.toNat 0) := by
  simp only [pyGet]
  rw [if_neg (not_lt.mpr h0)]
  rw [if_pos ⟨h0, h1⟩]

theorem listTotal_cons (k v : Int) (rest : List (Int × Int)) (s : Int) :
    listTotal ((k, v) :: rest) s = (if k = s then v else 0) + listTotal rest s := rfl

theorem listTotal_nonneg (l : List (Int × Int)) (s : Int) (h : ∀ q ∈ l, 0 ≤ q.2) :
    0 ≤ listTotal l s := by
  induction l with
  | nil => simp [listTotal]
  | cons q rest ih =>
    obtain ⟨k, v⟩ := q
    have hv : (0 : Int) ≤ v := h (k, v) (List.mem_cons_self _ _)
    have hr := ih (fun q hq => h q (List.mem_cons_of_mem _ hq))
    rw [listTotal_cons]
    split <;> omega

theorem listTotal_of_not_mem (l : List (Int × Int)) (s : Int)
    (h : s ∉ l.map Prod.fst) : listTotal l s = 0 := by
  induction l with
  | nil => rfl
  | cons q rest ih =>
    obtain ⟨k, v⟩ := q
    simp only [List.map_cons, List.mem_cons, not_or] at h
    rw [listTotal_cons, if_neg (fun hk : k = s => h.1 hk.symm), ih h.2]
    omega

theorem listTotal_ne_zero_mem (l : List (Int × Int)) (s : Int)
    (h : listTotal l s ≠ 0) : s ∈ l.map Prod.fst := by
  by_contra hn
  exact h (listTotal_of_not_mem l s hn)

theorem capPure_cons (c : Int) (times : Int → Int) (s p : Int) (rest : List (Int × Int)) :
    capPure c times ((s, p) :: rest) =
      if c < times s + p then false
      else capPure c (fun x => if x = s then times s + p else times x) rest := rfl

theorem capacityGo_cons (pt : List Int) (c : Int) (i : Nat) (times : Int → Int)
    (s : Int) (rest : List Int) :
    capacityGo pt c i times (s :: rest) =
      match pyGet pt (i : Int) with
      | .error e => .error e
      | .ok p =>
        if c < times s + p then .ok false
        else capacityGo pt c (i + 1) (fun x => if x = s then times s + p else times x) rest := rfl

theorem capacityGo_eq_capPure (pt : List Int) (c : Int) :
    ∀ (sol : List Int) (i : Nat) (times : Int → Int),
      i + sol.length ≤ pt.length →
      capacityGo pt c i times sol = .ok (capPure c times (sol.zip (pt.drop i)))
  | [], i, times, _ => by simp [capacityGo, capPure]
  | s :: rest, i, times, h => by
    have hi : i < pt.length := by simp only [List.length_cons] at h; omega
    have hg : pyGet pt (i : Int) = .ok pt[i] := by
      have h2 := pyGet_ok pt (i : Int) (Int.ofNat_nonneg i) (by exact_mod_cast hi)
      rw [Int.toNat_natCast] at h2
      rw [List.getD_eq_getElem pt 0 hi] at h2
      exact h2
    rw [List.drop_eq_getElem_cons hi]
    rw [capacityGo_cons pt c i times s rest, hg]
    rw [List.zip_cons_cons, capPure_cons]
    show (if c < times s + pt[i] then Except.ok false
          else capacityGo pt c (i + 1) (fun x => if x = s then times s + pt[i] else times x) rest) =
        Except.ok (if c < times s + pt[i] then false
          else capPure c (fun x => if x = s then times s + pt[i] else times x)
            (rest.zip (pt.drop (i + 1))))
    split
    · rfl
    · exact capacityGo_eq_capPure pt c rest (i + 1)
        (fun x => if x = s then times s + pt[i] else times x)
        (by simp only [List.length_cons] at h; omega)

theorem capPure_eq_true (c : Int) :
    ∀ (l : List (Int × Int)) (times : Int → Int),
      (∀ q ∈ l, 0 ≤ q.2) →
      (∀ s ∈ l.map Prod.fst, times s + listTotal l s ≤ c) →
      capPure c times l = true
  | [], _, _, _ => rfl
  | (s, p) :: rest, times, hnn, hle => by
    have hrnn : ∀ q ∈ rest, (0 : Int) ≤ q.2 :=
      fun q hq => hnn q (List.mem_cons_of_mem _ hq)
    have hs := hle s (by simp)
    rw [listTotal_cons, if_pos rfl] at hs
    have hrest0 : (0 : Int) ≤ listTotal rest s := listTotal_nonneg rest s hrnn
    rw [capPure_cons, if_neg (by omega)]
    apply capPure_eq_true c rest _ hrnn
    intro u hu
    by_cases hus : u = s
    · subst hus
      rw [if_pos rfl]
      omega
    · rw [if_neg hus]
      have h3 := hle u (List.mem_cons_of_mem _ hu)
      rw [listTotal_cons, if_neg (fun hh : s = u => hus hh.symm)] at h3
      omega

theorem capPure_eq_false (c : Int) :
    ∀ (l : List (Int × Int)) (times : Int → Int),
      (∀ q ∈ l, 0 ≤ q.2) →
      (∃ s ∈ l.map Prod.fst, c < times s + listTotal l s) →
      capPure c times l = false
  | [], _, _, hex => by simp at hex
  | (s, p) :: rest, times, hnn, hex => by
    have hrnn : ∀ q ∈ rest, (0 : Int) ≤ q.2 :=
      fun q hq => hnn q (List.mem_cons_of_mem _ hq)
    rw [capPure_cons]
    split
    · rfl
    · rename_i hnotlt
      have hle : times s + p ≤ c := not_lt.mp hnotlt
      apply capPure_eq_false c rest _ hrnn
      obtain ⟨u, hu, hcu⟩ := hex
      by_cases hus : u = s
      · subst hus
        rw [listTotal_cons, if_pos rfl] at hcu
        have hrmem : u ∈ rest.map Prod.fst := by
          apply listTotal_ne_zero_mem
          omega
        refine ⟨u, hrmem, ?_⟩
        rw [if_pos rfl]
        omega
      · have hmem : u ∈ rest.map Prod.fst := by
          simpa [hus] using hu
        refine ⟨u, hmem, ?_⟩
        rw [if_neg hus]
        rw [listTotal_cons, if_neg (fun hh : s = u => hus hh.symm)] at hcu
        omega

theorem precPairs_eq (sol : List Int) (i : Int) (h0 : 0 ≤ i) (h1 : i < (sol.length : Int)) :
    ∀ js : List Int, (∀ j ∈ js, 0 ≤ j ∧ j < (sol.length : Int)) →
      precPairs sol i js =
        .ok (js.all fun j => decide (sol.getD i.toNat 0 ≤ sol.getD j.toNat 0))
  | [], _ => rfl
  | j :: rest, hjs => by
    obtain ⟨hj0, hj1⟩ := hjs j (List.mem_cons_self _ _)
    have hgi := pyGet_ok sol i h0 h1
    have hgj := pyGet_ok sol j hj0 hj1
    rw [show precPairs sol i (j :: rest) =
        (match pyGet sol i with
         | .error e => .error e
         | .ok si =>
           match pyGet sol j with
           | .error e => .error e
           | .ok sj => if sj < si then .ok false else precPairs sol i rest) from rfl]
    rw [hgi, hgj]
    show (if sol.getD j.toNat 0 < sol.getD i.toNat 0 then Except.ok false
          else precPairs sol i rest) = _
    rw [List.all_cons]
    by_cases hc : sol.getD j.toNat 0 < sol.getD i.toNat 0
    · rw [if_pos hc, decide_eq_false (not_le.mpr hc), Bool.false_and]
    · rw [if_neg hc, decide_eq_true (not_lt.mp hc), Bool.true_and]
      exact precPairs_eq sol i h0 h1 rest (fun x hx => hjs x (List.mem_cons_of_mem _ hx))

theorem precedenceGo_eq (sol : List Int) :
    ∀ ss : List (Int × List Int),
      (∀ q ∈ ss, (0 ≤ q.1 ∧ q.1 < (sol.length : Int)) ∧
        ∀ j ∈ q.2, 0 ≤ j ∧ j < (sol.length : Int)) →
      precedenceGo sol ss =
        .ok (ss.all fun q =>
          q.2.all fun j => decide (sol.getD q.1.toNat 0 ≤ sol.getD j.toNat 0))
  | [], _ => rfl
  | (i, js) :: rest, hss => by
    obtain ⟨⟨hi0, hi1⟩, hjs⟩ := hss (i, js) (List.mem_cons_self _ _)
    have hp := precPairs_eq sol i hi0 hi1 js hjs
    rw [show precedenceGo sol ((i, js) :: rest) =
        (match precPairs sol i js with
         | .error e => .error e
         | .ok false => .ok false
         | .ok true => precedenceGo sol rest) from rfl]
    rw [hp, List.all_cons]
    cases hb : js.all fun j => decide (sol.getD i.toNat 0 ≤ sol.getD j.toNat 0) with
    | false => rfl
    | true =>
      rw [Bool.true_and]
      exact precedenceGo_eq sol rest (fun q hq => hss q (List.mem_cons_of_mem _ hq))

/-- The station values of a solution that passed the validity check are
integers in `[0, max_nb_stations)`. -/
theorem valid_map_bounds (maxSt : Int) (sol : List PyVal)
    (h : sol.all (isValidStation maxSt) = true) :
    ∀ v ∈ sol.map PyVal.toIntD, 0 ≤ v ∧ v < maxSt := by
  intro v hv
  rw [List.mem_map] at hv
  obtain ⟨w, hw, rfl⟩ := hv
  have hall := (List.all_eq_true.mp h) w hw
  cases w with
  | int n =>
    simp only [isValidStation, Bool.and_eq_true, decide_eq_true_eq] at hall
    simpa [PyVal.toIntD] using hall
  | other => simp [isValidStation] at hall

/-- After the shape and validity checks pass (and with enough processing
times and in-range successor indices so that no indexing raises),
`evaluate_solution` is: the capacity check, then the precedence check, then
the distinct-station count. -/
theorem evaluate_checked (inst : ProblemInstance) (sol : List PyVal)
    (hlen : (sol.length : Int) = inst.nb_tasks)
    (hval : sol.all (isValidStation inst.max_nb_stations) = true)
    (hpt : sol.length ≤ inst.processing_time.length)
    (hsucc : ∀ q ∈ inst.successors, (0 ≤ q.1 ∧ q.1 < (sol.length : Int)) ∧
        ∀ j ∈ q.2, 0 ≤ j ∧ j < (sol.length : Int)) :
    evaluate_solution inst (SolInput.seq sol) =
      (if (capPure inst.cycle_time (fun _ => 0)
            ((sol.map PyVal.toIntD).zip inst.processing_time)
          && (inst.successors.all fun q => q.2.all fun j =>
              decide ((sol.map PyVal.toIntD).getD q.1.toNat 0 ≤
                (sol.map PyVal.toIntD).getD j.toNat 0))) then
        .ok (((sol.map PyVal.toIntD).dedup.length : Nat) : Int)
      else .ok PENALTY) := by
  have hmaplen : (sol.map PyVal.toIntD).length = sol.length := List.length_map _ _
  have hcap := capacityGo_eq_capPure inst.processing_time inst.cycle_time
      (sol.map PyVal.toIntD) 0 (fun _ => 0) (by rw [hmaplen]; omega)
  rw [List.drop_zero] at hcap
  have hprec := precedenceGo_eq (sol.map PyVal.toIntD) inst.successors
      (by rw [hmaplen]; exact hsucc)
  rw [show evaluate_solution inst (SolInput.seq sol) =
    (if (sol.length : Int) ≠ inst.nb_tasks then .error .valueError
     else if !(sol.all (isValidStation inst.max_nb_stations)) then .ok PENALTY
     else
       match capacityGo inst.processing_time inst.cycle_time 0 (fun _ => 0)
           (sol.map PyVal.toIntD) with
       | .error e => .error e
       | .ok false => .ok PENALTY
       | .ok true =>
         match precedenceGo (sol.map PyVal.toIntD) inst.successors with
         | .error e => .error e
         | .ok false => .ok PENALTY
         | .ok true => .ok (((sol.map PyVal.toIntD).dedup.length : Nat) : Int))
    from rfl]
  rw [if_neg (fun hne => hne hlen)]
  rw [hval, Bool.not_true, if_neg (by decide)]
  rw [hcap]
  cases hb : capPure inst.cycle_time (fun _ => 0)
      ((sol.map PyVal.toIntD).zip inst.processing_time) with
  | false =>
    rw [Bool.false_and, if_neg (by decide)]
  | true =>
    rw [Bool.true_and]
    show (match precedenceGo (sol.map PyVal.toIntD) inst.successors with
         | Except.error e => (Except.error e : Except PyErr Int)
         | Except.ok false => Except.ok PENALTY
         | Except.ok true =>
             Except.ok (((sol.map PyVal.toIntD).dedup.length : Nat) : Int)) = _
    rw [hprec]
    cases hp : inst.successors.all fun q => q.2.all fun j =>
        decide ((sol.map PyVal.toIntD).getD q.1.toNat 0 ≤
          (sol.map PyVal.toIntD).getD j.toNat 0) with
    | false => rw [if_neg (by decide)]
    | true => rw [if_pos rfl]

/-- Definitional unfolding of `evaluate_solution` on a sequence input. -/
theorem evaluate_seq_eq (inst : ProblemInstance) (sol : List PyVal) :
    evaluate_solution inst (SolInput.seq sol) =
      (if (sol.length : Int) ≠ inst.nb_tasks then .error .valueError
       else if !(sol.all (isValidStation inst.max_nb_stations)) then .ok PENALTY
       else
         match capacityGo inst.processing_time inst.cycle_time 0 (fun _ => 0)
             (sol.map PyVal.toIntD) with
         | .error e => .error e
         | .ok false => .ok PENALTY
         | .ok true =>
           match precedenceGo (sol.map PyVal.toIntD) inst.successors with
           | .error e => .error e
           | .ok false => .ok PENALTY
           | .ok true => .ok (((sol.map PyVal.toIntD).dedup.length : Nat) : Int)) := rfl

/-- A well-shaped solution failing the validity check is penalized. -/
theorem evaluate_val_false (inst : ProblemInstance) (sol : List PyVal)
    (hlen : (sol.length : Int) = inst.nb_tasks)
    (hval : sol.all (isValidStation inst.max_nb_stations) = false) :
    evaluate_solution inst (SolInput.seq sol) = .ok PENALTY := by
  rw [evaluate_seq_eq, if_neg (fun hne => hne hlen), hval]
  rw [if_pos (by decide)]

/-- A well-shaped, valid solution failing the capacity loop is penalized. -/
theorem evaluate_cap_false (inst : ProblemInstance) (sol : List PyVal)
    (hlen : (sol.length : Int) = inst.nb_tasks)
    (hval : sol.all (isValidStation inst.max_nb_stations) = true)
    (hc : capacityGo inst.processing_time inst.cycle_time 0 (fun _ => 0)
        (sol.map PyVal.toIntD) = .ok false) :
    evaluate_solution inst (SolInput.seq sol) = .ok PENALTY := by
  rw [evaluate_seq_eq, if_neg (fun hne => hne hlen), hval, Bool.not_true,
    if_neg (by decide), hc]

/-- Inversion: every `ok` result of `evaluate_solution` implies the shape
check passed and the score is the penalty or the distinct-station count. -/
theorem evaluate_ok_cases (inst : ProblemInstance) (sol : List PyVal) (r : Int)
    (h : evaluate_solution inst (SolInput.seq sol) = .ok r) :
    (sol.length : Int) = inst.nb_tasks ∧
      (r = PENALTY ∨ r = (((sol.map PyVal.toIntD).dedup.length : Nat) : Int)) := by
  rw [evaluate_seq_eq] at h
  split at h
  · exact absurd h (by simp)
  · rename_i hlen
    refine ⟨not_ne_iff.mp hlen, ?_⟩
    split at h
    · left; exact (Except.ok.inj h).symm
    · split at h
      · exact absurd h (by simp)
      · left; exact (Except.ok.inj h).symm
      · split at h
        · exact absurd h (by simp)
        · left; exact (Except.ok.inj h).symm
        · right; exact (Except.ok.inj h).symm

theorem toFinset_card_eq_dedup_length (l : List Int) :
    l.toFinset.card = l.dedup.length := by
  rw [← List.toFinset_card_of_nodup (List.nodup_dedup l)]
  congr 1
  ext x
  simp [List.mem_toFinset, List.mem_dedup]

theorem one_le_dedup_length (l : List Int) (h : l ≠ []) : 1 ≤ l.dedup.length := by
  cases l with
  | nil => exact absurd rfl h
  | cons a l2 =>
    have hm : a ∈ (a :: l2).dedup := List.mem_dedup.mpr (List.mem_cons_self _ _)
    exact List.length_pos.mpr (List.ne_nil_of_mem hm)

/-- C1: over an instance satisfying the spec's data-model invariants, a
well-shaped assignment that passes the station-validity check and violates
no capacity and no precedence constraint is scored with the number of
distinct station indices it uses — the cardinality of the set of used
indices (not `max_station_count`, not the highest index plus one). -/
theorem c1_objective_counts_distinct_stations
    (inst : ProblemInstance) (sol : List PyVal)
    (hpt_len : (inst.processing_time.length : Int) = inst.nb_tasks)
    (hpt_nn : ∀ p ∈ inst.processing_time, 0 ≤ p)
    (hsucc : ∀ q ∈ inst.successors, (0 ≤ q.1 ∧ q.1 < inst.nb_tasks) ∧
        ∀ j ∈ q.2, 0 ≤ j ∧ j < inst.nb_tasks)
    (hlen : (sol.length : Int) = inst.nb_tasks)
    (hval : sol.all (isValidStation inst.max_nb_stations) = true)
    (hcap : ∀ s ∈ sol.map PyVal.toIntD,
        stationTotal inst.processing_time (sol.map PyVal.toIntD) s ≤ inst.cycle_time)
    (hprec : ∀ q ∈ inst.successors, ∀ j ∈ q.2,
        (sol.map PyVal.toIntD).getD q.1.toNat 0 ≤ (sol.map PyVal.toIntD).getD j.toNat 0) :
    evaluate_solution inst (SolInput.seq sol) =
      .ok (((sol.map PyVal.toIntD).toFinset.card : Nat) : Int) := by
  have hmaplen : (sol.map PyVal.toIntD).length = sol.length := List.length_map _ _
  have hptlen : inst.processing_time.length = sol.length := by
    exact_mod_cast hpt_len.trans hlen.symm
  have hsucc2 : ∀ q ∈ inst.successors, (0 ≤ q.1 ∧ q.1 < (sol.length : Int)) ∧
      ∀ j ∈ q.2, 0 ≤ j ∧ j < (sol.length : Int) := by
    rw [hlen]; exact hsucc
  rw [evaluate_checked inst sol hlen hval (le_of_eq hptlen.symm) hsucc2]
  have hfst : ((sol.map PyVal.toIntD).zip inst.processing_time).map Prod.fst =
      sol.map PyVal.toIntD :=
    List.map_fst_zip _ _ (by omega)
  have hcapT : capPure inst.cycle_time (fun _ => 0)
      ((sol.map PyVal.toIntD).zip inst.processing_time) = true := by
    apply capPure_eq_true
    · intro q hq
      exact hpt_nn q.2 (List.of_mem_zip hq).2
    · intro s hs
      rw [hfst] at hs
      have := hcap s hs
      simpa [stationTotal] using this
  have hprecT : (inst.successors.all fun q => q.2.all fun j =>
      decide ((sol.map PyVal.toIntD).getD q.1.toNat 0 ≤
        (sol.map PyVal.toIntD).getD j.toNat 0)) = true := by
    simp only [List.all_eq_true, decide_eq_true_eq]
    exact hprec
  rw [hcapT, hprecT, if_pos (by decide)]
  rw [toFinset_card_eq_dedup_length]

/-- C1 witness: the spec's concrete scenario, assignment [0, 0, 1]. -/
theorem c1_objective_counts_distinct_stations_witness :
    evaluate_solution exInst
        (SolInput.seq [PyVal.int 0, PyVal.int 0, PyVal.int 1]) =
      .ok ((([PyVal.int 0, PyVal.int 0, PyVal.int 1].map
          PyVal.toIntD).toFinset.card : Nat) : Int) :=
  c1_objective_counts_distinct_stations exInst
    [PyVal.int 0, PyVal.int 0, PyVal.int 1]
    (by decide) (by decide) (by decide) (by decide) (by decide) (by decide)
    (by decide)

/-- C2: over an instance satisfying the spec's data-model invariants, a
well-shaped assignment whose station indices are all valid is penalized as
soon as some recorded precedence pair (p, s) has `assignment[p] >
assignment[s]`. -/
theorem c2_precedence_violation_penalized
    (inst : ProblemInstance) (sol : List PyVal)
    (hpt_len : (inst.processing_time.length : Int) = inst.nb_tasks)
    (hsucc : ∀ q ∈ inst.successors, (0 ≤ q.1 ∧ q.1 < inst.nb_tasks) ∧
        ∀ j ∈ q.2, 0 ≤ j ∧ j < inst.nb_tasks)
    (hlen : (sol.length : Int) = inst.nb_tasks)
    (hval : sol.all (isValidStation inst.max_nb_stations) = true)
    (hviol : ∃ q ∈ inst.successors, ∃ j ∈ q.2,
        (sol.map PyVal.toIntD).getD j.toNat 0 <
          (sol.map PyVal.toIntD).getD q.1.toNat 0) :
    evaluate_solution inst (SolInput.seq sol) = .ok PENALTY := by
  have hptlen : inst.processing_time.length = sol.length := by
    exact_mod_cast hpt_len.trans hlen.symm
  have hsucc2 : ∀ q ∈ inst.successors, (0 ≤ q.1 ∧ q.1 < (sol.length : Int)) ∧
      ∀ j ∈ q.2, 0 ≤ j ∧ j < (sol.length : Int) := by
    rw [hlen]; exact hsucc
  rw [evaluate_checked inst sol hlen hval (le_of_eq hptlen.symm) hsucc2]
  have hallF : (inst.successors.all fun q => q.2.all fun j =>
      decide ((sol.map PyVal.toIntD).getD q.1.toNat 0 ≤
        (sol.map PyVal.toIntD).getD j.toNat 0)) = false := by
    obtain ⟨q, hq, j, hj, hlt⟩ := hviol
    apply Bool.eq_false_iff.mpr
    intro hT
    have h1 := List.all_eq_true.mp hT q hq
    have h2 := List.all_eq_true.mp h1 j hj
    exact absurd (of_decide_eq_true h2) (not_le.mpr hlt)
  rw [hallF, Bool.and_false, if_neg (by decide)]

/-- C2 witness: the spec's second scenario, assignment [1, 0, 0] with the
precedence pair (0, 2) violated. -/
theorem c2_precedence_violation_penalized_witness :
    evaluate_solution exInst
        (SolInput.seq [PyVal.int 1, PyVal.int 0, PyVal.int 0]) = .ok PENALTY :=
  c2_precedence_violation_penalized exInst
    [PyVal.int 1, PyVal.int 0, PyVal.int 0]
    (by decide) (by decide) (by decide) (by decide)
    ⟨(0, [2]), by decide, 2, by decide, by decide⟩

/-- C3: over an instance satisfying the spec's data-model invariants and a
well-shaped, all-valid assignment: if every used station's total is at most
`cycle_time` (equality allowed), the capacity loop passes without penalty;
if some used station's total strictly exceeds `cycle_time`, the evaluation
returns the penalty. -/
theorem c3_capacity_boundary
    (inst : ProblemInstance) (sol : List PyVal)
    (hpt_len : (inst.processing_time.length : Int) = inst.nb_tasks)
    (hpt_nn : ∀ p ∈ inst.processing_time, 0 ≤ p)
    (hlen : (sol.length : Int) = inst.nb_tasks)
    (hval : sol.all (isValidStation inst.max_nb_stations) = true) :
    ((∀ s ∈ sol.map PyVal.toIntD,
        stationTotal inst.processing_time (sol.map PyVal.toIntD) s ≤ inst.cycle_time) →
      capacityGo inst.processing_time inst.cycle_time 0 (fun _ => 0)
        (sol.map PyVal.toIntD) = .ok true) ∧
    ((∃ s ∈ sol.map PyVal.toIntD,
        inst.cycle_time <
          stationTotal inst.processing_time (sol.map PyVal.toIntD) s) →
      evaluate_solution inst (SolInput.seq sol) = .ok PENALTY) := by
  have hmaplen : (sol.map PyVal.toIntD).length = sol.length := List.length_map _ _
  have hptlen : inst.processing_time.length = sol.length := by
    exact_mod_cast hpt_len.trans hlen.symm
  have hbridge := capacityGo_eq_capPure inst.processing_time inst.cycle_time
      (sol.map PyVal.toIntD) 0 (fun _ => 0) (by omega)
  rw [List.drop_zero] at hbridge
  have hfst : ((sol.map PyVal.toIntD).zip inst.processing_time).map Prod.fst =
      sol.map PyVal.toIntD :=
    List.map_fst_zip _ _ (by omega)
  have hnn : ∀ q ∈ (sol.map PyVal.toIntD).zip inst.processing_time, (0 : Int) ≤ q.2 :=
    fun q hq => hpt_nn q.2 (List.of_mem_zip hq).2
  constructor
  · intro hcap
    rw [hbridge]
    have : capPure inst.cycle_time (fun _ => 0)
        ((sol.map PyVal.toIntD).zip inst.processing_time) = true := by
      apply capPure_eq_true _ _ _ hnn
      intro s hs
      rw [hfst] at hs
      simpa [stationTotal] using hcap s hs
    rw [this]
  · intro hex
    apply evaluate_cap_false inst sol hlen hval
    rw [hbridge]
    have : capPure inst.cycle_time (fun _ => 0)
        ((sol.map PyVal.toIntD).zip inst.processing_time) = false := by
      apply capPure_eq_false _ _ _ hnn
      obtain ⟨s, hs, hgt⟩ := hex
      refine ⟨s, by rw [hfst]; exact hs, ?_⟩
      simpa [stationTotal] using hgt
    rw [this]

/-- C3 witness: on the spec scenario, assignment [0, 0, 1] fills station 0
to 9 ≤ 10 and passes, while [0, 0, 0] overfills station 0 to 12 > 10 and is
penalized. -/
theorem c3_capacity_boundary_witness :
    capacityGo exInst.processing_time exInst.cycle_time 0 (fun _ => 0)
        ([PyVal.int 0, PyVal.int 0, PyVal.int 1].map PyVal.toIntD) = .ok true ∧
    evaluate_solution exInst
        (SolInput.seq [PyVal.int 0, PyVal.int 0, PyVal.int 0]) = .ok PENALTY :=
  ⟨(c3_capacity_boundary exInst [PyVal.int 0, PyVal.int 0, PyVal.int 1]
      (by decide) (by decide) (by decide) (by decide)).1 (by decide),
   (c3_capacity_boundary exInst [PyVal.int 0, PyVal.int 0, PyVal.int 0]
      (by decide) (by decide) (by decide) (by decide)).2
     ⟨0, by decide, by decide⟩⟩

/-- C4: a well-shaped assignment containing an entry that is not an integer,
or negative, or at least `max_station_count`, is penalized — no exception is
raised and no capacity or precedence data enters the result (the theorem
assumes nothing about `processing_time` or `successors`). -/
theorem c4_invalid_station_penalized
    (inst : ProblemInstance) (sol : List PyVal)
    (hlen : (sol.length : Int) = inst.nb_tasks)
    (hbad : ∃ v ∈ sol, v = PyVal.other ∨
        ∃ n : Int, v = PyVal.int n ∧ (n < 0 ∨ inst.max_nb_stations ≤ n)) :
    evaluate_solution inst (SolInput.seq sol) = .ok PENALTY := by
  apply evaluate_val_false inst sol hlen
  obtain ⟨v, hv, hcase⟩ := hbad
  apply Bool.eq_false_iff.mpr
  intro hT
  have hvT := List.all_eq_true.mp hT v hv
  rcases hcase with h1 | ⟨n, h2, h3⟩
  · subst h1; simp [isValidStation] at hvT
  · subst h2
    simp only [isValidStation, Bool.and_eq_true, decide_eq_true_eq] at hvT
    omega

/-- C4 witness: an assignment with a negative entry on the spec scenario. -/
theorem c4_invalid_station_penalized_witness :
    evaluate_solution exInst
        (SolInput.seq [PyVal.int 0, PyVal.int (-1), PyVal.int 1]) = .ok PENALTY :=
  c4_invalid_station_penalized exInst [PyVal.int 0, PyVal.int (-1), PyVal.int 1]
    (by decide)
    ⟨PyVal.int (-1), by decide, Or.inr ⟨-1, rfl, Or.inl (by decide)⟩⟩

/-- C5: a non-sequence input, or a sequence whose length differs from
`task_count`, makes `evaluate_solution` raise the input-shape `ValueError`
— it never returns the penalty or any score for such input. -/
theorem c5_shape_error (inst : ProblemInstance) :
    evaluate_solution inst SolInput.nonSeq = .error .valueError ∧
    ∀ sol : List PyVal, (sol.length : Int) ≠ inst.nb_tasks →
      evaluate_solution inst (SolInput.seq sol) = .error .valueError := by
  refine ⟨rfl, fun sol hne => ?_⟩
  rw [evaluate_seq_eq, if_pos hne]

/-- C5 witness: a length-2 assignment against the 3-task spec scenario. -/
theorem c5_shape_error_witness :
    evaluate_solution exInst (SolInput.seq [PyVal.int 0, PyVal.int 0]) =
      .error .valueError :=
  (c5_shape_error exInst).2 [PyVal.int 0, PyVal.int 0] (by decide)

/-- C10: over an instance satisfying the stated data-model invariants, a
well-shaped input never raises: the result is `ok` of either the penalty or
a station count that is at most `task_count` and, for a non-empty
assignment, at least 1. -/
theorem c10_no_exception_bounded_score
    (inst : ProblemInstance) (sol : List PyVal)
    (hpt_len : (inst.processing_time.length : Int) = inst.nb_tasks)
    (hsucc : ∀ q ∈ inst.successors, (0 ≤ q.1 ∧ q.1 < inst.nb_tasks) ∧
        ∀ j ∈ q.2, 0 ≤ j ∧ j < inst.nb_tasks)
    (hlen : (sol.length : Int) = inst.nb_tasks) :
    ∃ r : Int, evaluate_solution inst (SolInput.seq sol) = .ok r ∧
      (r = PENALTY ∨ (r ≤ inst.nb_tasks ∧ (sol ≠ [] → 1 ≤ r))) := by
  have hmaplen : (sol.map PyVal.toIntD).length = sol.length := List.length_map _ _
  have hptlen : inst.processing_time.length = sol.length := by
    exact_mod_cast hpt_len.trans hlen.symm
  cases hval : sol.all (isValidStation inst.max_nb_stations) with
  | false =>
    exact ⟨PENALTY, evaluate_val_false inst sol hlen hval, Or.inl rfl⟩
  | true =>
    have hsucc2 : ∀ q ∈ inst.successors, (0 ≤ q.1 ∧ q.1 < (sol.length : Int)) ∧
        ∀ j ∈ q.2, 0 ≤ j ∧ j < (sol.length : Int) := by
      rw [hlen]; exact hsucc
    rw [evaluate_checked inst sol hlen hval (le_of_eq hptlen.symm) hsucc2]
    cases hcond : (capPure inst.cycle_time (fun _ => 0)
          ((sol.map PyVal.toIntD).zip inst.processing_time)
        && (inst.successors.all fun q => q.2.all fun j =>
            decide ((sol.map PyVal.toIntD).getD q.1.toNat 0 ≤
              (sol.map PyVal.toIntD).getD j.toNat 0))) with
    | false =>
      rw [if_neg (by decide)]
      exact ⟨PENALTY, rfl, Or.inl rfl⟩
    | true =>
      rw [if_pos rfl]
      refine ⟨_, rfl, Or.inr ⟨?_, ?_⟩⟩
      · have hd : (sol.map PyVal.toIntD).dedup.length ≤ sol.length := by
          have := (List.dedup_sublist (sol.map PyVal.toIntD)).length_le
          omega
        omega
      · intro hne
        have hmne : sol.map PyVal.toIntD ≠ [] := by
          cases sol with
          | nil => exact absurd rfl hne
          | cons a l2 => simp
        have := one_le_dedup_length _ hmne
        exact_mod_cast this

/-- C10 witness: the spec scenario with assignment [0, 0, 1]. -/
theorem c10_no_exception_bounded_score_witness :
    ∃ r : Int, evaluate_solution exInst
        (SolInput.seq [PyVal.int 0, PyVal.int 0, PyVal.int 1]) = .ok r ∧
      (r = PENALTY ∨ (r ≤ exInst.nb_tasks ∧
        ([PyVal.int 0, PyVal.int 0, PyVal.int 1] ≠ [] → 1 ≤ r))) :=
  c10_no_exception_bounded_score exInst [PyVal.int 0, PyVal.int 0, PyVal.int 1]
    (by decide) (by decide) (by decide)

/-- C6 counterexample: the penalty sentinel is the fixed constant `10^9`,
and the (unvalidated) constructor admits an instance with
`task_count = 10^9`; on it, the penalty returned for an infeasible
assignment is not strictly greater than `task_count`. -/
theorem c6_penalty_dominance_counterexample :
    evaluate_solution hugeInst
        (SolInput.seq (List.replicate 1000000000 (PyVal.int (-1)))) = .ok PENALTY ∧
    ¬ (hugeInst.nb_tasks < PENALTY) := by
  constructor
  · apply evaluate_val_false
    · rw [List.length_replicate]
      rfl
    · apply Bool.eq_false_iff.mpr
      intro hT
      have hm : PyVal.int (-1) ∈ List.replicate 1000000000 (PyVal.int (-1)) :=
        List.mem_replicate.mpr ⟨by norm_num, rfl⟩
      have hv := List.all_eq_true.mp hT _ hm
      rw [show isValidStation hugeInst.max_nb_stations (PyVal.int (-1)) = false
        from rfl] at hv
      exact absurd hv (by decide)
  · decide

/-- C6 amended: every score returned by `evaluate_solution` is either the
penalty sentinel `10^9` or a station count lying in `[0, task_count]` and
strictly below the sentinel whenever `task_count < 10^9`; so the sentinel
strictly dominates every feasible objective for every instance whose
`task_count` is below `10^9`. -/
theorem c6_penalty_dominance_amended
    (inst : ProblemInstance) (sol : List PyVal) (r : Int)
    (h : evaluate_solution inst (SolInput.seq sol) = .ok r) :
    r = PENALTY ∨
      (0 ≤ r ∧ r ≤ inst.nb_tasks ∧ (inst.nb_tasks < PENALTY → r < PENALTY)) := by
  obtain ⟨hlen, hcases⟩ := evaluate_ok_cases inst sol r h
  rcases hcases with h1 | h2
  · exact Or.inl h1
  · right
    have hd : (sol.map PyVal.toIntD).dedup.length ≤ sol.length := by
      have h3 := (List.dedup_sublist (sol.map PyVal.toIntD)).length_le
      have h4 : (sol.map PyVal.toIntD).length = sol.length := List.length_map _ _
      omega
    subst h2
    refine ⟨by positivity, ?_, ?_⟩
    · omega
    · intro hsmall
      omega

/-- C6 amended witness: the feasible score 2 on the spec scenario. -/
theorem c6_penalty_dominance_amended_witness :
    (2 : Int) = PENALTY ∨
      (0 ≤ (2 : Int) ∧ (2 : Int) ≤ exInst.nb_tasks ∧
        (exInst.nb_tasks < PENALTY → (2 : Int) < PENALTY)) :=
  c6_penalty_dominance_amended exInst
    [PyVal.int 0, PyVal.int 0, PyVal.int 1] 2 (by rfl)

theorem except_bind_ok {α β : Type} (a : α) (f : α → Except PyErr β) :
    (Except.ok a >>= f) = f a := rfl

theorem except_bind_error {α β : Type} (e : PyErr) (f : α → Except PyErr β) :
    ((Except.error e : Except PyErr α) >>= f) = .error e := rfl

theorem skipTokens_err : ∀ (n : Nat) (ts : List String), ts.length < n →
    skipTokens n ts = .error .stopIteration
  | 0, _, h => absurd h (by omega)
  | _ + 1, [], _ => rfl
  | n + 1, _ :: ts, h =>
    skipTokens_err n ts (by simp only [List.length_cons] at h; omega)

theorem skipTokens_ok : ∀ (n : Nat) (ts : List String), n ≤ ts.length →
    skipTokens n ts = .ok (ts.drop n)
  | 0, _, _ => rfl
  | n + 1, [], h => absurd h (by simp)
  | n + 1, _ :: ts, h =>
    skipTokens_ok n ts (by simp only [List.length_cons] at h; omega)

theorem skipTokens_ok_inv (n : Nat) (ts r : List String)
    (h : skipTokens n ts = .ok r) : r = ts.drop n ∧ r.length + n = ts.length := by
  by_cases hle : n ≤ ts.length
  · rw [skipTokens_ok n ts hle] at h
    have hr : r = ts.drop n := (Except.ok.inj h).symm
    refine ⟨hr, ?_⟩
    rw [hr, List.length_drop]
    omega
  · rw [skipTokens_err n ts (by omega)] at h
    exact absurd h (by simp)

theorem readInt_ok_inv (ts r : List String) (v : Int)
    (h : readInt ts = .ok (v, r)) :
    ∃ t, ts = t :: r ∧ pyInt t = some v := by
  cases ts with
  | nil => exact absurd h (by simp [readInt])
  | cons t ts2 =>
    refine ⟨t, ?_⟩
    rw [show readInt (t :: ts2) = (match pyInt t with
        | none => .error .valueError
        | some n => .ok (n, ts2)) from rfl] at h
    cases hp : pyInt t with
    | none => rw [hp] at h; exact absurd h (by simp)
    | some m =>
      rw [hp] at h
      have h2 := Except.ok.inj h
      rw [Prod.mk.injEq] at h2
      obtain ⟨hm, hts⟩ := h2
      subst hm
      subst hts
      exact ⟨rfl, rfl⟩

theorem readPairs_ok_inv : ∀ (n : Nat) (ts : List String) (d d2 : List (Int × Int))
    (r : List String), readPairs n ts d = .ok (d2, r) → r.length + 2 * n = ts.length
  | 0, ts, d, d2, r, h => by
    have h2 := Except.ok.inj h
    rw [Prod.mk.injEq] at h2
    rw [← h2.2]
    omega
  | _ + 1, [], _, _, _, h => absurd h (by simp [readPairs])
  | n + 1, [t], d, d2, r, h => by
    rw [show readPairs (n + 1) [t] d = (match pyInt t with
        | none => .error .valueError
        | some _ => .error .stopIteration) from rfl] at h
    cases hp : pyInt t with
    | none => rw [hp] at h; exact absurd h (by simp)
    | some m => rw [hp] at h; exact absurd h (by simp)
  | n + 1, t :: u :: ts2, d, d2, r, h => by
    rw [show readPairs (n + 1) (t :: u :: ts2) d = (match pyInt t with
        | none => .error .valueError
        | some task =>
          match pyInt u with
          | none => .error .valueError
          | some time => readPairs n ts2 (dictInsert d (task - 1) time)) from rfl] at h
    cases hp : pyInt t with
    | none => rw [hp] at h; exact absurd h (by simp)
    | some task =>
      rw [hp] at h
      cases hu : pyInt u with
      | none => rw [hu] at h; exact absurd h (by simp)
      | some time =>
        rw [hu] at h
        have h3 := readPairs_ok_inv n ts2 (dictInsert d (task - 1) time) d2 r h
        simp only [List.length_cons]
        omega

theorem readPairs_err : ∀ (n : Nat) (ts : List String) (d : List (Int × Int)),
    ts.length < 2 * n → ∃ e, readPairs n ts d = .error e
  | 0, _, _, h => absurd h (by omega)
  | _ + 1, [], d, _ => ⟨.stopIteration, rfl⟩
  | n + 1, [t], d, _ => by
    rw [show readPairs (n + 1) [t] d = (match pyInt t with
        | none => .error .valueError
        | some _ => .error .stopIteration) from rfl]
    cases hp : pyInt t with
    | none => exact ⟨.valueError, rfl⟩
    | some m => exact ⟨.stopIteration, rfl⟩
  | n + 1, t :: u :: ts2, d, h => by
    rw [show readPairs (n + 1) (t :: u :: ts2) d = (match pyInt t with
        | none => .error .valueError
        | some task =>
          match pyInt u with
          | none => .error .valueError
          | some time => readPairs n ts2 (dictInsert d (task - 1) time)) from rfl]
    cases hp : pyInt t with
    | none => exact ⟨.valueError, rfl⟩
    | some task =>
      cases hu : pyInt u with
      | none => exact ⟨.valueError, rfl⟩
      | some time =>
        show ∃ e, readPairs n ts2 (dictInsert d (task - 1) time) = .error e
        apply readPairs_err n ts2 (dictInsert d (task - 1) time)
        simp only [List.length_cons] at h
        omega

theorem get?_eq_head_drop (l : List String) :
    ∀ n : Nat, l.get? n = (l.drop n).head? := by
  induction l with
  | nil => intro n; cases n <;> rfl
  | cons a l2 ih =>
    intro n
    cases n with
    | zero => rfl
    | succ m => exact ih m

/-- Inversion: a successful load read `nb_tasks` from token 3 and consumed
at least `14 + 2 * nb_tasks` tokens. -/
theorem loadInstance_ok_shape (tokens : List String) (inst : ProblemInstance)
    (h : loadInstance tokens = .ok inst) :
    ∃ t : String, tokens.get? 3 = some t ∧ pyInt t = some inst.nb_tasks ∧
      14 + 2 * inst.nb_tasks.toNat ≤ tokens.length := by
  unfold loadInstance at h
  cases h0 : skipTokens 3 tokens with
  | error e => rw [h0, except_bind_error] at h; exact absurd h (by simp)
  | ok ts0 =>
    rw [h0, except_bind_ok] at h
    obtain ⟨hd0, hl0⟩ := skipTokens_ok_inv 3 tokens ts0 h0
    cases h1 : readInt ts0 with
    | error e => rw [h1, except_bind_error] at h; exact absurd h (by simp)
    | ok p1 =>
      obtain ⟨nb, ts1⟩ := p1
      rw [h1, except_bind_ok] at h
      dsimp only at h
      obtain ⟨t, hts0, hpt⟩ := readInt_ok_inv ts0 ts1 nb h1
      cases h2 : skipTokens 2 ts1 with
      | error e => rw [h2, except_bind_error] at h; exact absurd h (by simp)
      | ok ts2 =>
        rw [h2, except_bind_ok] at h
        obtain ⟨hd2, hl2⟩ := skipTokens_ok_inv 2 ts1 ts2 h2
        cases h3 : readInt ts2 with
        | error e => rw [h3, except_bind_error] at h; exact absurd h (by simp)
        | ok p3 =>
          obtain ⟨ct, ts3⟩ := p3
          rw [h3, except_bind_ok] at h
          dsimp only at h
          obtain ⟨u3, hts2, hpu3⟩ := readInt_ok_inv ts2 ts3 ct h3
          cases h4 : skipTokens 5 ts3 with
          | error e => rw [h4, except_bind_error] at h; exact absurd h (by simp)
          | ok ts4 =>
            rw [h4, except_bind_ok] at h
            obtain ⟨hd4, hl4⟩ := skipTokens_ok_inv 5 ts3 ts4 h4
            cases h5 : readPairs nb.toNat ts4 [] with
            | error e => rw [h5, except_bind_error] at h; exact absurd h (by simp)
            | ok p5 =>
              obtain ⟨dict, ts5⟩ := p5
              rw [h5, except_bind_ok] at h
              dsimp only at h
              have hl5 := readPairs_ok_inv nb.toNat ts4 [] dict ts5 h5
              cases h6 : skipTokens 2 ts5 with
              | error e => rw [h6, except_bind_error] at h; exact absurd h (by simp)
              | ok ts6 =>
                rw [h6, except_bind_ok] at h
                obtain ⟨hd6, hl6⟩ := skipTokens_ok_inv 2 ts5 ts6 h6
                cases h7 : readSuccessors ts6 [] with
                | error e => rw [h7, except_bind_error] at h; exact absurd h (by simp)
                | ok succ =>
                  rw [h7, except_bind_ok] at h
                  have hinst : inst.nb_tasks = nb := by
                    have := Except.ok.inj h
                    rw [← this]
                  refine ⟨t, ?_, ?_, ?_⟩
                  · rw [get?_eq_head_drop, ← hd0, hts0]
                    rfl
                  · rw [hinst]; exact hpt
                  · rw [hinst]
                    have hlen1 : ts0.length = ts1.length + 1 := by
                      rw [hts0]; rfl
                    have hlen3 : ts2.length = ts3.length + 1 := by
                      rw [hts2]; rfl
                    omega

theorem readInt_cons_some (t : String) (ts : List String) (v : Int)
    (h : pyInt t = some v) : readInt (t :: ts) = .ok (v, ts) := by
  rw [show readInt (t :: ts) = (match pyInt t with
      | none => .error .valueError
      | some m => .ok (m, ts)) from rfl, h]

theorem readInt_cons_none (t : String) (ts : List String)
    (h : pyInt t = none) : readInt (t :: ts) = .error .valueError := by
  rw [show readInt (t :: ts) = (match pyInt t with
      | none => .error .valueError
      | some m => .ok (m, ts)) from rfl, h]

theorem readPairs_token_err :
    ∀ (n : Nat) (ts : List String) (d : List (Int × Int)) (k : Nat) (u : String),
      k < 2 * n → ts.get? k = some u → pyInt u = none →
      readPairs n ts d = .error .valueError
  | 0, _, _, _, _, hk, _, _ => absurd hk (by omega)
  | _ + 1, [], _, _, _, _, hget, _ => Option.noConfusion hget
  | n + 1, [t], d, 0, u, _, hget, hnone => by
    have ht : t = u := Option.some.inj hget
    rw [show readPairs (n + 1) [t] d = (match pyInt t with
        | none => .error .valueError
        | some _ => .error .stopIteration) from rfl, ht, hnone]
  | _ + 1, [_], _, _ + 1, _, _, hget, _ => Option.noConfusion hget
  | n + 1, t :: u2 :: ts2, d, k, u, hk, hget, hnone => by
    rw [show readPairs (n + 1) (t :: u2 :: ts2) d = (match pyInt t with
        | none => .error .valueError
        | some task =>
          match pyInt u2 with
          | none => .error .valueError
          | some time => readPairs n ts2 (dictInsert d (task - 1) time))
      from rfl]
    cases hp : pyInt t with
    | none => rfl
    | some task =>
      cases hq : pyInt u2 with
      | none => rfl
      | some time =>
        show readPairs n ts2 (dictInsert d (task - 1) time) = .error .valueError
        rcases k with _ | _ | k2
        · have ht : t = u := Option.some.inj hget
          rw [ht, hnone] at hp
          exact Option.noConfusion hp
        · have hu2 : u2 = u := Option.some.inj hget
          rw [hu2, hnone] at hq
          exact Option.noConfusion hq
        · exact readPairs_token_err n ts2 (dictInsert d (task - 1) time) k2 u
            (by omega) hget hnone

/-- C9: loading fails with an exception (no partial recovery, no default)
whenever the token stream is exhausted before a mandatory field or a
mandatory numeric token does not parse as an integer: (i) fewer than 4
tokens leaves `task_count` unread — `StopIteration`; (ii) a non-integer
`task_count` token — `ValueError`; (iii) once `task_count = n` is read,
fewer than `14 + 2 n` tokens cannot cover the mandatory fields — the load
errors; (iv) a non-integer `cycle_time_limit` token (position 6) —
`ValueError`; (v) a non-integer processing-time pair token (position
`12 + k`, `k < 2 n`) — `ValueError`. -/
theorem c9_mandatory_field_failures :
    (∀ tokens : List String, tokens.length ≤ 3 →
        loadInstance tokens = .error .stopIteration) ∧
    (∀ (tokens : List String) (t : String), tokens.get? 3 = some t →
        pyInt t = none → loadInstance tokens = .error .valueError) ∧
    (∀ (tokens : List String) (t : String) (n : Int), tokens.get? 3 = some t →
        pyInt t = some n → tokens.length < 14 + 2 * n.toNat →
        ∃ e, loadInstance tokens = .error e) ∧
    (∀ (tokens : List String) (u : String), tokens.get? 6 = some u →
        pyInt u = none → loadInstance tokens = .error .valueError) ∧
    (∀ (t0 t1 t2 t3 t4 t5 t6 t7 t8 t9 t10 t11 : String) (rest : List String)
        (n : Int) (k : Nat) (u : String),
        pyInt t3 = some n → k < 2 * n.toNat → rest.get? k = some u →
        pyInt u = none →
        loadInstance (t0 :: t1 :: t2 :: t3 :: t4 :: t5 :: t6 :: t7 :: t8 ::
          t9 :: t10 :: t11 :: rest) = .error .valueError) := by
  refine ⟨?_, ?_, ?_, ?_, ?_⟩
  · intro tokens hlen
    rcases tokens with _ | ⟨a, _ | ⟨b, _ | ⟨c, _ | ⟨d, ts⟩⟩⟩⟩
    · rfl
    · rfl
    · rfl
    · rfl
    · exfalso
      simp only [List.length_cons] at hlen
      omega
  · intro tokens t hget hnone
    rcases tokens with _ | ⟨a, _ | ⟨b, _ | ⟨c, _ | ⟨d, ts⟩⟩⟩⟩
    · exact absurd hget (by simp)
    · exact absurd hget (by simp)
    · exact absurd hget (by simp)
    · exact absurd hget (by simp)
    · have hsome : some d = some t := hget
      have hd : d = t := Option.some.inj hsome
      subst hd
      have hs : skipTokens 3 (a :: b :: c :: d :: ts) = .ok (d :: ts) := rfl
      have hr : readInt (d :: ts) = .error .valueError := by
        rw [show readInt (d :: ts) = (match pyInt d with
            | none => .error .valueError
            | some m => .ok (m, ts)) from rfl, hnone]
      simp only [loadInstance, hs, except_bind_ok, hr, except_bind_error]
  · intro tokens t n hget hpt hlen
    cases hres : loadInstance tokens with
    | error e => exact ⟨e, rfl⟩
    | ok inst =>
      exfalso
      obtain ⟨u, hu, hpu, hle⟩ := loadInstance_ok_shape tokens inst hres
      have htu : some t = some u := hget.symm.trans hu
      have htu2 : t = u := Option.some.inj htu
      subst htu2
      have hn : some n = some inst.nb_tasks := hpt.symm.trans hpu
      have hn2 : n = inst.nb_tasks := Option.some.inj hn
      omega
  · intro tokens u hget hnone
    rcases tokens with _ | ⟨a0, _ | ⟨a1, _ | ⟨a2, _ | ⟨a3, _ | ⟨a4, _ |
      ⟨a5, _ | ⟨a6, rest⟩⟩⟩⟩⟩⟩⟩
    · exact Option.noConfusion hget
    · exact Option.noConfusion hget
    · exact Option.noConfusion hget
    · exact Option.noConfusion hget
    · exact Option.noConfusion hget
    · exact Option.noConfusion hget
    · exact Option.noConfusion hget
    · have h6 : a6 = u := Option.some.inj hget
      have hnone2 : pyInt a6 = none := by rw [h6]; exact hnone
      unfold loadInstance
      rw [show skipTokens 3 (a0 :: a1 :: a2 :: a3 :: a4 :: a5 :: a6 :: rest) =
        .ok (a3 :: a4 :: a5 :: a6 :: rest) from rfl, except_bind_ok]
      cases hp3 : pyInt a3 with
      | none => rw [readInt_cons_none a3 _ hp3, except_bind_error]
      | some nb =>
        rw [readInt_cons_some a3 _ nb hp3, except_bind_ok]
        dsimp only
        rw [show skipTokens 2 (a4 :: a5 :: a6 :: rest) = .ok (a6 :: rest)
          from rfl, except_bind_ok]
        rw [readInt_cons_none a6 _ hnone2, except_bind_error]
  · intro t0 t1 t2 t3 t4 t5 t6 t7 t8 t9 t10 t11 rest n k u hp3 hk hget hnone
    unfold loadInstance
    rw [show skipTokens 3 (t0 :: t1 :: t2 :: t3 :: t4 :: t5 :: t6 :: t7 :: t8 ::
        t9 :: t10 :: t11 :: rest) =
      .ok (t3 :: t4 :: t5 :: t6 :: t7 :: t8 :: t9 :: t10 :: t11 :: rest)
      from rfl, except_bind_ok]
    rw [readInt_cons_some t3 _ n hp3, except_bind_ok]
    dsimp only
    rw [show skipTokens 2 (t4 :: t5 :: t6 :: t7 :: t8 :: t9 :: t10 :: t11 ::
        rest) = .ok (t6 :: t7 :: t8 :: t9 :: t10 :: t11 :: rest)
      from rfl, except_bind_ok]
    cases hp6 : pyInt t6 with
    | none => rw [readInt_cons_none t6 _ hp6, except_bind_error]
    | some ct =>
      rw [readInt_cons_some t6 _ ct hp6, except_bind_ok]
      dsimp only
      rw [show skipTokens 5 (t7 :: t8 :: t9 :: t10 :: t11 :: rest) = .ok rest
        from rfl, except_bind_ok]
      rw [readPairs_token_err n.toNat rest [] k u hk hget hnone,
        except_bind_error]

/-- C9 witness: the empty token stream errors before `task_count`, and a
16-token stream whose cycle-time token (position 6) is "XYZ" errors with a
`ValueError`. -/
theorem c9_mandatory_field_failures_witness :
    loadInstance [] = .error .stopIteration ∧
    loadInstance ["h", "h", "h", "1", "s", "s", "XYZ", "k", "k", "k", "k", "k",
        "1", "4", "w", "w"] = .error .valueError :=
  ⟨c9_mandatory_field_failures.1 [] (by decide),
   c9_mandatory_field_failures.2.2.2.1
     ["h", "h", "h", "1", "s", "s", "XYZ", "k", "k", "k", "k", "k",
      "1", "4", "w", "w"] "XYZ" (by rfl) (by rfl)⟩

theorem map_keep_of_ne (d : List (Int × List Int)) (k v : Int)
    (h : ∀ q ∈ d, q.1 ≠ k) :
    (d.map fun p => if p.1 == k then (p.1, p.2 ++ [v]) else p) = d := by
  induction d with
  | nil => rfl
  | cons q rest ih =>
    rw [List.map_cons]
    rw [if_neg (by simpa using h q (List.mem_cons_self _ _))]
    rw [ih (fun q2 hq => h q2 (List.mem_cons_of_mem _ hq))]

theorem readSuccessors_cons (t : String) (ts : List String)
    (acc : List (Int × List Int)) :
    readSuccessors (t :: ts) acc =
      (if t.toList.contains ',' then
        match splitOnComma t.toList with
        | [a, b] =>
          match pyIntChars a, pyIntChars b with
          | some pa, some pb => readSuccessors ts (dictAppend acc (pa - 1) (pb - 1))
          | _, _ => .error .valueError
        | _ => .error .valueError
      else readSuccessors ts acc) := rfl

/-- C8 counterexample: the trailing token "1,2,3" contains a comma but is
not parsed as a precedence pair — the scan raises a `ValueError` (Python:
too many values to unpack), contradicting the claim that every
comma-containing token is parsed as a pair and that the scan ends without
error. -/
theorem c8_trailing_scan_counterexample :
    readSuccessors ["1,2,3"] [] = .error .valueError := by rfl

/-- C8 amended: the trailing scan (i) returns the accumulated mapping when
the stream is exhausted, without error; (ii) ignores any token without a
comma; (iii) parses any token that splits at commas into exactly two
integer literals as a pair, converts both from 1-indexed to 0-indexed and
appends the successor to the list keyed by the predecessor; (iv) a pair
whose predecessor already has an entry appends to that entry's list; and
(v) any comma-containing token that does not split into exactly two
integer components instead makes the scan raise a `ValueError`. -/
theorem c8_trailing_scan_amended :
    (∀ acc : List (Int × List Int), readSuccessors [] acc = .ok acc) ∧
    (∀ (t : String) (ts : List String) (acc : List (Int × List Int)),
        t.toList.contains ',' = false →
        readSuccessors (t :: ts) acc = readSuccessors ts acc) ∧
    (∀ (t : String) (a b : List Char) (x y : Int) (ts : List String)
        (acc : List (Int × List Int)),
        t.toList.contains ',' = true →
        splitOnComma t.toList = [a, b] →
        pyIntChars a = some x → pyIntChars b = some y →
        readSuccessors (t :: ts) acc =
          readSuccessors ts (dictAppend acc (x - 1) (y - 1))) ∧
    (∀ (d1 d2 : List (Int × List Int)) (k v : Int) (ll : List Int),
        (∀ q ∈ d1, q.1 ≠ k) → (∀ q ∈ d2, q.1 ≠ k) →
        dictAppend (d1 ++ (k, ll) :: d2) k v = d1 ++ (k, ll ++ [v]) :: d2) ∧
    (∀ (t : String) (ts : List String) (acc : List (Int × List Int)),
        t.toList.contains ',' = true →
        (∀ a b : List Char, splitOnComma t.toList = [a, b] →
          pyIntChars a = none ∨ pyIntChars b = none) →
        readSuccessors (t :: ts) acc = .error .valueError) := by
  refine ⟨fun acc => rfl, ?_, ?_, ?_, ?_⟩
  · intro t ts acc hnc
    rw [readSuccessors_cons, hnc, if_neg (by decide)]
  · intro t a b x y ts acc hc hsplit hx hy
    rw [readSuccessors_cons, hc, if_pos rfl, hsplit]
    show (match pyIntChars a, pyIntChars b with
          | some pa, some pb => readSuccessors ts (dictAppend acc (pa - 1) (pb - 1))
          | _, _ => (.error .valueError : Except PyErr (List (Int × List Int)))) = _
    rw [hx, hy]
  · intro d1 d2 k v ll h1 h2
    unfold dictAppend
    have hany : ((d1 ++ (k, ll) :: d2).any fun p => p.1 == k) = true := by
      rw [List.any_eq_true]
      exact ⟨(k, ll), by simp, by simp⟩
    rw [hany, if_pos rfl, List.map_append, List.map_cons]
    rw [map_keep_of_ne d1 k v h1, map_keep_of_ne d2 k v h2, if_pos (by simp)]
  · intro t ts acc hc hbad
    rw [readSuccessors_cons, hc, if_pos rfl]
    cases hsp : splitOnComma t.toList with
    | nil => rfl
    | cons a tail =>
      cases tail with
      | nil => rfl
      | cons b tail2 =>
        cases tail2 with
        | cons c l => rfl
        | nil =>
          have hnp := hbad a b hsp
          show (match pyIntChars a, pyIntChars b with
                | some pa, some pb =>
                    readSuccessors ts (dictAppend acc (pa - 1) (pb - 1))
                | _, _ =>
                    (.error .valueError : Except PyErr (List (Int × List Int)))) =
              .error .valueError
          cases hpa : pyIntChars a with
          | none =>
            cases hpb : pyIntChars b with
            | none => rfl
            | some y => rfl
          | some x =>
            cases hpb : pyIntChars b with
            | none => rfl
            | some y =>
              rcases hnp with h | h
              · rw [hpa] at h
                exact Option.noConfusion h
              · rw [hpb] at h
                exact Option.noConfusion h

/-- C8 amended witness: the scan on ["junk", "1,2", "1,3"] accumulates both
successors of predecessor 0 in one list, and the comma token "a,b" with two
non-integer components raises a `ValueError`. -/
theorem c8_trailing_scan_amended_witness :
    readSuccessors ["junk", "1,2", "1,3"] [] =
      readSuccessors ["1,2", "1,3"] [] ∧
    dictAppend [(0, [1])] 0 2 = [(0, [1, 2])] ∧
    readSuccessors ["a,b"] [] = .error .valueError :=
  ⟨c8_trailing_scan_amended.2.1 "junk" ["1,2", "1,3"] [] (by decide),
   c8_trailing_scan_amended.2.2.2.1 [] [] 0 2 [1] (by simp) (by simp),
   c8_trailing_scan_amended.2.2.2.2 "a,b" [] [] (by rfl)
     (by
       intro a b h
       have h2 : ([['a'], ['b']] : List (List Char)) = [a, b] := h
       injection h2 with ha h3
       injection h3 with hb h4
       left
       rw [← ha]
       decide)⟩

theorem readPairs_encoded :
    ∀ (ps : List (Int × Int)) (ptoks rest : List String) (d : List (Int × Int)),
      tokensEncodePairs ptoks ps = true →
      readPairs ps.length (ptoks ++ rest) d =
        .ok (ps.foldl (fun d2 q => dictInsert d2 (q.1 - 1) q.2) d, rest)
  | [], ptoks, rest, d, h => by
    cases ptoks with
    | nil => rfl
    | cons a ts =>
      exfalso
      cases ts <;> simp [tokensEncodePairs] at h
  | (x, y) :: ps, ptoks, rest, d, h => by
    match ptoks with
    | [] => exact absurd h (by simp [tokensEncodePairs])
    | [a] => exact absurd h (by simp [tokensEncodePairs])
    | a :: b :: ts =>
      rw [show tokensEncodePairs (a :: b :: ts) ((x, y) :: ps) =
          (pyInt a == some x && pyInt b == some y && tokensEncodePairs ts ps)
        from rfl] at h
      rw [Bool.and_eq_true, Bool.and_eq_true] at h
      obtain ⟨⟨ha, hb⟩, hts⟩ := h
      rw [beq_iff_eq] at ha
      rw [beq_iff_eq] at hb
      rw [show ((x, y) :: ps).length = ps.length + 1 from rfl]
      rw [show (a :: b :: ts) ++ rest = a :: b :: (ts ++ rest) from rfl]
      rw [show readPairs (ps.length + 1) (a :: b :: (ts ++ rest)) d =
          (match pyInt a with
           | none => .error .valueError
           | some task =>
             match pyInt b with
             | none => .error .valueError
             | some time => readPairs ps.length (ts ++ rest)
                 (dictInsert d (task - 1) time)) from rfl]
      rw [ha, hb]
      show readPairs ps.length (ts ++ rest) (dictInsert d (x - 1) y) = _
      rw [readPairs_encoded ps ts rest (dictInsert d (x - 1) y) hts]
      rfl

theorem foldl_dictInsert_fresh :
    ∀ (ps : List (Int × Int)) (d : List (Int × Int)),
      (ps.map (fun q => q.1 - 1)).Nodup →
      (∀ k ∈ ps.map (fun q => q.1 - 1), ∀ q ∈ d, q.1 ≠ k) →
      ps.foldl (fun d2 q => dictInsert d2 (q.1 - 1) q.2) d =
        d ++ ps.map (fun q => (q.1 - 1, q.2))
  | [], d, _, _ => by simp
  | q :: ps, d, hnd, hfresh => by
    rw [List.foldl_cons]
    have hq : dictInsert d (q.1 - 1) q.2 = d ++ [(q.1 - 1, q.2)] := by
      unfold dictInsert
      rw [if_neg]
      intro hany
      rw [List.any_eq_true] at hany
      obtain ⟨p, hp, hpk⟩ := hany
      rw [beq_iff_eq] at hpk
      exact hfresh (q.1 - 1) (by simp) p hp hpk
    rw [hq]
    rw [List.map_cons] at hnd
    have hnd2 := List.Nodup.of_cons hnd
    have hne : ∀ k ∈ ps.map (fun p => p.1 - 1), q.1 - 1 ≠ k := by
      intro k hk
      intro heq
      rw [List.nodup_cons] at hnd
      exact hnd.1 (heq ▸ hk)
    rw [foldl_dictInsert_fresh ps (d ++ [(q.1 - 1, q.2)]) hnd2 ?_]
    · rw [List.map_cons, List.append_assoc]
      rfl
    · intro k hk p hp
      rcases List.mem_append.mp hp with hp1 | hp2
      · exact hfresh k (List.mem_cons_of_mem _ hk) p hp1
      · have : p = (q.1 - 1, q.2) := by simpa using hp2
        rw [this]
        exact hne k hk

theorem sortPairs_perm (l : List (Int × Int)) : List.Perm (sortPairs l) l :=
  List.perm_insertionSort _ l

theorem sortPairs_sorted (l : List (Int × Int)) :
    List.Sorted (fun a b : Int × Int => a.1 ≤ b.1) (sortPairs l) :=
  List.sorted_insertionSort _ l

theorem sortPairs_keys_eq_range (d : List (Int × Int)) (n : Nat)
    (hkeys : List.Perm (d.map Prod.fst) ((List.range n).map Int.ofNat)) :
    (sortPairs d).map Prod.fst = (List.range n).map Int.ofNat := by
  have hp : List.Perm ((sortPairs d).map Prod.fst) ((List.range n).map Int.ofNat) :=
    ((sortPairs_perm d).map Prod.fst).trans hkeys
  have hs1 : List.Sorted (fun a b : Int => a ≤ b) ((sortPairs d).map Prod.fst) :=
    List.Pairwise.map Prod.fst (fun a b h => h) (sortPairs_sorted d)
  have hs2 : List.Sorted (fun a b : Int => a ≤ b) ((List.range n).map Int.ofNat) := by
    apply List.Pairwise.map Int.ofNat ?_ (List.pairwise_lt_range n)
    intro a b hab
    have h5 : (a : Int) ≤ (b : Int) := by exact_mod_cast le_of_lt hab
    exact h5
  exact List.eq_of_perm_of_sorted hp hs1 hs2

theorem sortPairs_values_at (d : List (Int × Int)) (n : Nat)
    (hkeys : List.Perm (d.map Prod.fst) ((List.range n).map Int.ofNat))
    (i : Nat) (t : Int) (hmem : (Int.ofNat i, t) ∈ d) :
    ((sortPairs d).map Prod.snd).get? i = some t := by
  have hkeq := sortPairs_keys_eq_range d n hkeys
  have hmem2 : (Int.ofNat i, t) ∈ sortPairs d := (sortPairs_perm d).mem_iff.mpr hmem
  obtain ⟨j, hj, hget⟩ := List.mem_iff_getElem.mp hmem2
  have hgetq : (sortPairs d)[j]? = some (Int.ofNat i, t) := by
    rw [List.getElem?_eq_getElem hj, hget]
  have hkeyq : ((sortPairs d).map Prod.fst)[j]? = some (Int.ofNat i) := by
    rw [List.getElem?_map, hgetq]
    rfl
  rw [hkeq] at hkeyq
  have hlen : (sortPairs d).length = n := by
    have h1 := congrArg List.length hkeq
    simp only [List.length_map, List.length_range] at h1
    have h2 := (sortPairs_perm d).length_eq
    omega
  have hjn : j < n := by omega
  have hsome : some (Int.ofNat j) = some (Int.ofNat i) := by
    rw [← hkeyq, List.getElem?_map,
      List.getElem?_eq_getElem (by simpa using hjn)]
    simp only [List.getElem_range]
    rfl
  have hij : i = j := by
    have h3 := Option.some.inj hsome
    have h4 : (j : Int) = (i : Int) := h3
    omega
  subst hij
  rw [List.get?_eq_getElem?, List.getElem?_map, hgetq]
  rfl

/-- C7: for a token stream whose processing-time section lists the
`task_count` (task, time) pairs in arbitrary order with task numbers
covering 1..task_count, a successful load yields `processing_time` with
`processing_time[i]` = the time recorded for 1-indexed task `i + 1`. -/
theorem c7_processing_time_round_trip
    (h1 h2 h3 tn s1 s2 tc k1 k2 k3 k4 k5 w1 w2 : String)
    (ptoks rest : List String) (n : Nat) (pairs : List (Int × Int))
    (htn : pyInt tn = some (Int.ofNat n))
    (hp : tokensEncodePairs ptoks pairs = true)
    (hlenp : pairs.length = n)
    (hcover : List.Perm (pairs.map Prod.fst)
        ((List.range n).map (fun i => Int.ofNat i + 1)))
    (inst : ProblemInstance)
    (hload : loadInstance (h1 :: h2 :: h3 :: tn :: s1 :: s2 :: tc :: k1 :: k2 ::
        k3 :: k4 :: k5 :: (ptoks ++ w1 :: w2 :: rest)) = .ok inst) :
    ∀ (i : Nat) (t : Int), i < n → (Int.ofNat i + 1, t) ∈ pairs →
      inst.processing_time.get? i = some t := by
  intro i t hin hmem
  unfold loadInstance at hload
  rw [show skipTokens 3 (h1 :: h2 :: h3 :: tn :: s1 :: s2 :: tc :: k1 :: k2 ::
      k3 :: k4 :: k5 :: (ptoks ++ w1 :: w2 :: rest)) =
    .ok (tn :: s1 :: s2 :: tc :: k1 :: k2 :: k3 :: k4 :: k5 ::
      (ptoks ++ w1 :: w2 :: rest)) from rfl, except_bind_ok] at hload
  rw [readInt_cons_some tn _ (Int.ofNat n) htn, except_bind_ok] at hload
  dsimp only at hload
  rw [show skipTokens 2 (s1 :: s2 :: tc :: k1 :: k2 :: k3 :: k4 :: k5 ::
      (ptoks ++ w1 :: w2 :: rest)) =
    .ok (tc :: k1 :: k2 :: k3 :: k4 :: k5 :: (ptoks ++ w1 :: w2 :: rest))
    from rfl, except_bind_ok] at hload
  cases hct : pyInt tc with
  | none =>
    rw [readInt_cons_none tc _ hct, except_bind_error] at hload
    exact absurd hload (by simp)
  | some ct =>
    rw [readInt_cons_some tc _ ct hct, except_bind_ok] at hload
    dsimp only at hload
    rw [show skipTokens 5 (k1 :: k2 :: k3 :: k4 :: k5 ::
        (ptoks ++ w1 :: w2 :: rest)) = .ok (ptoks ++ w1 :: w2 :: rest)
      from rfl, except_bind_ok] at hload
    rw [show (Int.ofNat n).toNat = n from Int.toNat_natCast n] at hload
    rw [← hlenp] at hload
    rw [readPairs_encoded pairs ptoks (w1 :: w2 :: rest) [] hp,
      except_bind_ok] at hload
    dsimp only at hload
    rw [show skipTokens 2 (w1 :: w2 :: rest) = .ok rest from rfl,
      except_bind_ok] at hload
    cases hrs : readSuccessors rest [] with
    | error e =>
      rw [hrs, except_bind_error] at hload
      exact absurd hload (by simp)
    | ok succ =>
      rw [hrs, except_bind_ok] at hload
      have hinst := (Except.ok.inj hload).symm
      have hproc : inst.processing_time =
          (sortPairs (pairs.foldl
            (fun d2 q => dictInsert d2 (q.1 - 1) q.2) [])).map Prod.snd := by
        rw [hinst]
      have hshiftkeys : (pairs.map (fun q => q.1 - 1)) =
          (pairs.map Prod.fst).map (fun k => k - 1) := by
        rw [List.map_map]
        rfl
      have hcover2 : List.Perm ((pairs.map Prod.fst).map (fun k => k - 1))
          (((List.range n).map (fun i2 => Int.ofNat i2 + 1)).map (fun k => k - 1)) :=
        hcover.map (fun k => k - 1)
      have hrange2 : (((List.range n).map (fun i2 => Int.ofNat i2 + 1)).map
          (fun k => k - 1)) = (List.range n).map Int.ofNat := by
        rw [List.map_map]
        apply List.map_congr_left
        intro a _
        show Int.ofNat a + 1 - 1 = Int.ofNat a
        omega
      have hkeysperm : List.Perm ((pairs.map (fun q => (q.1 - 1, q.2))).map Prod.fst)
          ((List.range n).map Int.ofNat) := by
        rw [List.map_map]
        rw [show (Prod.fst ∘ fun q : Int × Int => (q.1 - 1, q.2)) =
          (fun q : Int × Int => q.1 - 1) from rfl]
        rw [hshiftkeys]
        rw [← hrange2]
        exact hcover2
      have hrangenodup : ((List.range n).map Int.ofNat).Nodup := by
        apply List.Nodup.map
        · intro a b hab
          have hab2 : (a : Int) = (b : Int) := hab
          omega
        · exact List.nodup_range n
      have hshiftnodup : (pairs.map (fun q => q.1 - 1)).Nodup := by
        have hperm2 : List.Perm (pairs.map (fun q => q.1 - 1))
            ((List.range n).map Int.ofNat) := by
          rw [hshiftkeys, ← hrange2]
          exact hcover2
        exact (hperm2.nodup_iff).mpr hrangenodup
      have hfold : pairs.foldl (fun d2 q => dictInsert d2 (q.1 - 1) q.2) [] =
          pairs.map (fun q => (q.1 - 1, q.2)) := by
        rw [foldl_dictInsert_fresh pairs [] hshiftnodup (by intro k hk q hq; simp at hq)]
        rfl
      rw [hproc, hfold]
      apply sortPairs_values_at _ n hkeysperm i t
      rw [List.mem_map]
      refine ⟨(Int.ofNat i + 1, t), hmem, ?_⟩
      show (Int.ofNat i + 1 - 1, t) = (Int.ofNat i, t)
      rw [Prod.mk.injEq]
      constructor
      · omega
      · rfl

/-- C7 witness: a concrete file whose pairs appear out of order — task 2
before task 1; the loaded `processing_time` is [4, 7] and index 0 holds the
time recorded for task 1. -/
theorem c7_processing_time_round_trip_witness :
    loadInstance ["a", "b", "c", "2", "s", "s", "10", "k", "k", "k", "k", "k",
        "2", "7", "1", "4", "w", "w"] = .ok
      { nb_tasks := 2, max_nb_stations := 2, cycle_time := 10,
        processing_time := [4, 7], successors := [] } ∧
    ({ nb_tasks := 2, max_nb_stations := 2, cycle_time := 10,
        processing_time := [4, 7],
        successors := [] } : ProblemInstance).processing_time.get? 0 = some 4 :=
  ⟨by rfl,
   c7_processing_time_round_trip "a" "b" "c" "2" "s" "s" "10" "k" "k" "k" "k" "k"
     "w" "w" ["2", "7", "1", "4"] [] 2 [(2, 7), (1, 4)]
     (by rfl) (by rfl) (by rfl)
     (by rw [show (List.range 2).map (fun i => Int.ofNat i + 1) = [1, 2] from rfl]
         exact List.Perm.swap 1 2 [])
     { nb_tasks := 2, max_nb_stations := 2, cycle_time := 10,
       processing_time := [4, 7], successors := [] }
     (by rfl) 0 4 (by decide) (by decide)⟩
